import Mathlib

/-!
Verification of the sqd-sdk portal client and EVM query builder.

The definitions below are shallow embeddings of the TypeScript sources:
  * `splitSep`, `lsTransform`, `lsRun`, `lsOutput` embed `LineSplitStream`
    (src/util/portal-client/src/client.ts, lines 405-440);
  * later sections embed the query-builder, the field hydration and the
    ingest loop of `createReadablePortalStream`.

JS strings are modelled as lists of UTF-16 code units (`List Nat`); the
line separator `"\n"` is code unit 10.
-/

namespace Sqd

/-- A JS string, modelled as its list of UTF-16 code units. -/
abbrev JsStr := List Nat

/-- JS `String.prototype.split` with a single-code-unit separator.
Always returns a non-empty list of fields; splitting the empty string
yields one empty field. -/
def splitSep (sep : Nat) : JsStr → List JsStr
  | [] => [[]]
  | c :: cs =>
    match splitSep sep cs with
    | [] => [[]]
    | h :: t => if c = sep then [] :: h :: t else (c :: h) :: t

/-- Joining a list of fields with the separator (inverse of `splitSep`). -/
def joinSep (sep : Nat) : List JsStr → JsStr
  | [] => []
  | [x] => x
  | x :: xs => x ++ sep :: joinSep sep xs

/-- Glueing two split results of adjacent texts: the last field of the left
result is concatenated with the first field of the right result. -/
def glue : List JsStr → List JsStr → List JsStr
  | [], ys => ys
  | [x], [] => [x]
  | [x], y :: ys => (x ++ y) :: ys
  | x :: y :: xs, ys => x :: glue (y :: xs) ys

/-- One `transform` step of `LineSplitStream` (client.ts, lines 418-429):
`lines = chunk.split(separator)`; when the chunk holds no separator it only
extends the carried partial line, otherwise the carried line is prepended
to the first field, the last field becomes the new carry (`lines.pop() or
the empty string`), and the complete lines are enqueued as one batch. -/
def lsTransform (sep : Nat) (carry chunk : JsStr) : List JsStr × JsStr :=
  match splitSep sep chunk with
  | [] => ([], carry)
  | [p] => ([], carry ++ p)
  | p :: q :: ps => ((carry ++ p) :: (q :: ps).dropLast, (q :: ps).getLast (by simp))

/-- Feeding a list of chunks through the transform: the enqueued batches in
order, and the final carried line. -/
def lsRun (sep : Nat) (carry : JsStr) : List JsStr → List (List JsStr) × JsStr
  | [] => ([], carry)
  | c :: cs =>
    let r := lsTransform sep carry c
    let rest := lsRun sep r.2 cs
    (if r.1.isEmpty then rest.1 else r.1 :: rest.1, rest.2)

/-- The `flush` step (client.ts, lines 430-437): a non-empty carried line is
enqueued as a final single-line batch. -/
def lsFlush (carry : JsStr) : List (List JsStr) :=
  if carry = [] then [] else [[carry]]

/-- All line batches `LineSplitStream` emits for a chunked input, flush
included. -/
def lsOutput (sep : Nat) (chunks : List JsStr) : List (List JsStr) :=
  (lsRun sep [] chunks).1 ++ lsFlush (lsRun sep [] chunks).2

/-!
Query builder (src/evm/evm-stream/src/builder.ts).

Filter options objects are JS objects; they are modelled as ordered lists
of properties with `JsVal` values, strings again being lists of UTF-16
code units.
-/

/-- ASCII lowercasing of one UTF-16 code unit: the per-character model of
JS `String.prototype.toLowerCase` on the hex strings the builder sees. -/
def lowerCode (n : Nat) : Nat := if 65 ≤ n ∧ n ≤ 90 then n + 32 else n

/-- A JS value stored in a filter options object. -/
inductive JsVal where
  | str (s : JsStr)
  | num (n : Int)
  | bool (b : Bool)
  | arr (elems : List JsVal)
  | obj (props : List (String × JsVal))

/-- A JS object: its ordered list of properties. -/
abbrev Obj := List (String × JsVal)

/-- JS property read `o[k]`. -/
def getProp (o : Obj) (k : String) : Option JsVal :=
  (o.find? (fun kv => kv.1 == k)).map (fun kv => kv.2)

/-- The element mapping inside `mapRequest` (builder.ts, lines 138-140):
a string element is lowercased, any other element is kept. -/
def lowerElem : JsVal → JsVal
  | .str s => .str (s.map lowerCode)
  | v => v

/-- The per-property body of the `for key in req` loop in `mapRequest`
(builder.ts, lines 135-141): an array value has its string elements
lowercased, any other value is untouched. -/
def mapProp (kv : String × JsVal) : String × JsVal :=
  match kv.2 with
  | .arr elems => (kv.1, JsVal.arr (elems.map lowerElem))
  | _ => kv

/-- Embeds `mapRequest` (builder.ts, lines 134-144): every array-valued property
of the options object gets its string elements lowercased; all other
properties, the `range` property included, are left untouched. -/
def mapRequest (req : Obj) : Obj :=
  req.map mapProp

/-- Embeds `DataRequest` (interfaces/data-request.ts): optional per-kind filter
lists plus the optional `includeAllBlocks` flag; `none` models an absent
(JS `undefined`) field. The element type is a parameter; the source gives
each kind its own filter record type, but treats them uniformly. -/
structure DataRequest (T : Type) where
  includeAllBlocks : Option Bool := none
  logs : Option (List T) := none
  transactions : Option (List T) := none
  traces : Option (List T) := none
  stateDiffs : Option (List T) := none
deriving DecidableEq

/-- Embeds `concatRequestLists` (builder.ts, lines 123-132). -/
def concatRequestLists {T : Type} (a b : Option (List T)) : Option (List T) :=
  let result := a.getD [] ++ b.getD []
  if result.isEmpty then none else some result

/-- The payload merge closure that `EvmQueryBuilder.build` passes to
`mergeRangeRequests` (builder.ts, lines 105-115). -/
def mergeDataRequests {T : Type} (a b : DataRequest T) : DataRequest T :=
  { transactions := concatRequestLists a.transactions b.transactions
    logs := concatRequestLists a.logs b.logs
    traces := concatRequestLists a.traces b.traces
    stateDiffs := concatRequestLists a.stateDiffs b.stateDiffs
    includeAllBlocks :=
      if a.includeAllBlocks.getD false || b.includeAllBlocks.getD false then some true
      else none }

/-- One entry of `EvmQueryBuilder.ranges`: the range taken from the options
object paired with a single-kind request (builder.ts, lines 59-97). -/
structure RangeEntry where
  range : Option JsVal
  request : DataRequest Obj

/-- Embeds `EvmQueryBuilder.addLog` on the internal `ranges` list: pushes
`{range: options.range, request: {logs: [mapRequest(options)]}}`. -/
def addLog (ranges : List RangeEntry) (options : Obj) : List RangeEntry :=
  ranges ++ [{ range := getProp options "range", request := { logs := some [mapRequest options] } }]

/-- Embeds `EvmQueryBuilder.addTransaction` on the internal `ranges` list. -/
def addTransaction (ranges : List RangeEntry) (options : Obj) : List RangeEntry :=
  ranges ++
    [{ range := getProp options "range", request := { transactions := some [mapRequest options] } }]

/-- Embeds `EvmQueryBuilder.addTrace` on the internal `ranges` list. -/
def addTrace (ranges : List RangeEntry) (options : Obj) : List RangeEntry :=
  ranges ++
    [{ range := getProp options "range", request := { traces := some [mapRequest options] } }]

/-- Embeds `EvmQueryBuilder.addStateDiff` on the internal `ranges` list. -/
def addStateDiff (ranges : List RangeEntry) (options : Obj) : List RangeEntry :=
  ranges ++
    [{ range := getProp options "range", request := { stateDiffs := some [mapRequest options] } }]

/-- Two JS values that differ at most in the case of a string. -/
inductive CaseVariantElem : JsVal → JsVal → Prop
  | strCase (s t : JsStr) (h : s.map lowerCode = t.map lowerCode) :
      CaseVariantElem (.str s) (.str t)
  | same (v : JsVal) : CaseVariantElem v v

/-- Two filter options objects that differ only in the case of string
elements inside array-valued properties. -/
def CaseVariantObj (o1 o2 : Obj) : Prop :=
  List.Forall₂
    (fun kv1 kv2 => kv1.1 = kv2.1 ∧
      (kv1.2 = kv2.2 ∨ ∃ es1 es2, kv1.2 = .arr es1 ∧ kv2.2 = .arr es2 ∧
        List.Forall₂ CaseVariantElem es1 es2))
    o1 o2

/-!
Heap model of the add* operations of the builder, making the JS reference
semantics explicit: `mapRequest` assigns the lowercased arrays back onto
`req` itself and returns `req` (builder.ts, lines 134-144), and each add*
pushes that same reference — the type-level Omit of the range key does not
delete the `range` property at runtime.
-/

/-- A reference to a JS object: an index into the heap. -/
abbrev Ref := Nat

/-- The heap of live filter options objects. -/
structure Heap where
  objs : List Obj

/-- Dereferencing. -/
def Heap.get (h : Heap) (r : Ref) : Obj := h.objs.getD r []

/-- Overwriting the object a reference points to. -/
def Heap.set (h : Heap) (r : Ref) (o : Obj) : Heap := ⟨h.objs.set r o⟩

/-- Embeds `mapRequest` under the heap model: the argument object is overwritten
in place with its lowercased form and the very same reference is
returned. -/
def mapRequestH (h : Heap) (r : Ref) : Heap × Ref :=
  (h.set r (mapRequest (h.get r)), r)

/-- One entry of `EvmQueryBuilder.ranges` under the heap model: the stored
filters are references, not copies. -/
structure RangeEntryH where
  range : Option JsVal
  request : DataRequest Ref

/-- Embeds `addLog` under the heap model. -/
def addLogH (h : Heap) (ranges : List RangeEntryH) (r : Ref) : Heap × List RangeEntryH :=
  ((mapRequestH h r).1,
    ranges ++ [{ range := getProp (h.get r) "range",
                 request := { logs := some [(mapRequestH h r).2] } }])

/-- Embeds `addTransaction` under the heap model. -/
def addTransactionH (h : Heap) (ranges : List RangeEntryH) (r : Ref) :
    Heap × List RangeEntryH :=
  ((mapRequestH h r).1,
    ranges ++ [{ range := getProp (h.get r) "range",
                 request := { transactions := some [(mapRequestH h r).2] } }])

/-- Embeds `addTrace` under the heap model. -/
def addTraceH (h : Heap) (ranges : List RangeEntryH) (r : Ref) : Heap × List RangeEntryH :=
  ((mapRequestH h r).1,
    ranges ++ [{ range := getProp (h.get r) "range",
                 request := { traces := some [(mapRequestH h r).2] } }])

/-- Embeds `addStateDiff` under the heap model. -/
def addStateDiffH (h : Heap) (ranges : List RangeEntryH) (r : Ref) : Heap × List RangeEntryH :=
  ((mapRequestH h r).1,
    ranges ++ [{ range := getProp (h.get r) "range",
                 request := { stateDiffs := some [(mapRequestH h r).2] } }])

/-!
Field hydration of the EVM data source (src/unnamed/part_000): `getFields`
unions the user selection with `ALWAYS_SELECTED_FIELDS` and the resulting
selection is placed into every per-range wire query.
-/

/-- The runtime content of a field selection: for each record kind, the
set of enabled field names (a JS selection object enables a field exactly
when it holds `true` for it). -/
structure FieldSelection where
  block : String → Bool
  transaction : String → Bool
  log : String → Bool
  trace : String → Bool
  stateDiff : String → Bool

/-- Spreading literal `true` entries over a base selection:
`{...base, k1: true, ..., kn: true}`. -/
def spreadTrue (keys : List String) (base : String → Bool) : String → Bool :=
  fun k => if k ∈ keys then true else base k

/-- The selection of an absent `fields` argument: nothing enabled. -/
def emptySelection : FieldSelection :=
  ⟨fun _ => false, fun _ => false, fun _ => false, fun _ => false, fun _ => false⟩

/-- Embeds `getFields` (part_000, lines 265-273), spreading the literal
`ALWAYS_SELECTED_FIELDS` (lines 275-298) over the user selection; note the
extra `kind: true` spread onto the state-diff selection. -/
def getFields (fields : Option FieldSelection) : FieldSelection :=
  { block := spreadTrue ["number", "hash", "parentHash"]
      (fields.getD emptySelection).block
    transaction := spreadTrue ["transactionIndex"]
      (fields.getD emptySelection).transaction
    log := spreadTrue ["logIndex", "transactionIndex"]
      (fields.getD emptySelection).log
    trace := spreadTrue ["transactionIndex", "traceAddress", "type"]
      (fields.getD emptySelection).trace
    stateDiff := spreadTrue ["kind"]
      (spreadTrue ["transactionIndex", "address", "key"]
        (fields.getD emptySelection).stateDiff) }

/-- One wire query of the ingest loop of `EvmPortalDataSource.getBlockStream`
(part_000, lines 85-93): the same hydrated `fields` value is placed into
the query built for every range. -/
structure WireQuery where
  fromBlock : Nat
  toBlock : Option Nat
  fields : FieldSelection

/-- The queries sent by the ingest loop, one per clipped range. -/
def mkQueries (requests : List (Nat × Option Nat)) (userFields : Option FieldSelection) :
    List WireQuery :=
  requests.map fun r => { fromBlock := r.1, toBlock := r.2, fields := getFields userFields }

/-!
The ingest loop of `createReadablePortalStream`
(src/util/portal-client/src/client.ts, lines 175-385).

The environment is a script of server responses; the concurrently pulling
consumer is a schedule of booleans consumed at the await
points of the producer (a pull can deliver only once `putFuture` is resolved, which
coincides with the buffer being non-empty, so a scheduled take on an
empty buffer is a no-op). Time-outs and the `minBytes` readiness trigger
only influence *when* a pull may complete, which the arbitrary schedule
over-approximates.
-/

/-- One parsed line of a 200 response body: its raw length (what
`buffer.bytes += line.length` adds) and the block header number that
`JSON.parse(line)` yields. -/
structure Line where
  len : Nat
  num : Nat
deriving DecidableEq

/-- One line batch emitted by the line splitter for a response body. -/
abbrev Chunk := List Line

/-- How the read of a 200 response body ends: the server closing the body
normally (`data.done`), or an `HttpBodyTimeoutError` thrown by the next
read. -/
inductive EndKind where
  | normal
  | timeout
deriving DecidableEq

/-- One scripted server interaction: a 204, or a 200 carrying the
finalized height fetched for it together with the line batches read from
its body, or a status that `unexpectedCase` rejects. -/
inductive Response where
  | noData
  | data (height : Nat) (chunks : List Chunk) (endk : EndKind)
  | fatal
deriving DecidableEq

/-- The stream options; line 184 normalises
`maxBytes := max maxBytes minBytes`, applied below as
`max cfg.maxBytes cfg.minBytes`. -/
structure StreamConfig where
  minBytes : Nat
  maxBytes : Nat
  fromBlock : Nat
  toBlock : Option Nat
  stopOnHead : Bool
deriving DecidableEq

/-- The producer buffer (client.ts, lines 188 and 312-328): the stamped
finalized height, the block numbers pushed so far and the byte count, plus
the sizes of the last appended chunk and line (recorded to state the batch
size bounds). -/
structure Buffer where
  head : Nat
  nums : List Nat
  bytes : Nat
  lastChunkBytes : Nat
  lastLineBytes : Nat
deriving DecidableEq

inductive RunStatus where
  | running
  | closed
  | failed
deriving DecidableEq

/-- Observable state of one stream. `delivered` records the values the
pulls of the consumer produced, in order: `some b` is a proper batch,
`none` is the undefined value a pull that is pending when `fail` resolves
the futures receives (take, lines 200-222, special-cases only the closed
state, not the failed one, before returning a not-done result). `requests`
records the `fromBlock` of every issued request. -/
structure StreamState where
  fromBlock : Nat
  buffer : Option Buffer
  delivered : List (Option Buffer)
  requests : List Nat
  status : RunStatus
deriving DecidableEq

/-- Sum of the raw lengths of the lines of a chunk. -/
def chunkBytes (c : Chunk) : Nat := (c.map (fun l => l.len)).sum

/-- Appending one non-empty line batch (lines 312-328): the buffer is
created empty on first use, its finalized head is overwritten with the
head of the current response, one block is pushed per line, and the byte count
grows by the line lengths. -/
def appendChunk (height : Nat) (c : Chunk) (buf : Option Buffer) : Buffer :=
  let b0 : Buffer := match buf with
    | none => { head := height, nums := [], bytes := 0, lastChunkBytes := 0, lastLineBytes := 0 }
    | some b => { b with head := height }
  { head := b0.head
    nums := b0.nums ++ c.map (fun l => l.num)
    bytes := b0.bytes + chunkBytes c
    lastChunkBytes := chunkBytes c
    lastLineBytes := match c.getLast? with
      | some l => l.len
      | none => b0.lastLineBytes }

/-- Advances `fromBlock` past the last line of a chunk
(line 327). -/
def afterChunkFrom (f : Nat) (c : Chunk) : Nat :=
  match c.getLast? with
  | some l => l.num + 1
  | none => f

/-- A completed consumer take (lines 200-222): the whole buffer is handed
over and the buffer is cleared; with no buffer the pull stays pending and
nothing is observed. -/
def deliver (st : StreamState) : StreamState :=
  match st.buffer with
  | none => st
  | some b => { st with delivered := st.delivered ++ [some b], buffer := none }

/-- A producer await point: the schedule decides whether a consumer take
completes here. -/
def maybeTake (st : StreamState) (sched : List Bool) : StreamState × List Bool :=
  match sched with
  | [] => (st, [])
  | b :: rest => (if b then deliver st else st, rest)

/-- Embeds close() after the ingest task returns (lines 224-230 and 367): any
remaining buffer is handed to the consumer by the final pulls, after which
pulls report end-of-stream. -/
def closeFlush (st : StreamState) : StreamState :=
  { deliver st with status := RunStatus.closed }

/-- The loop guard `fromBlock > toBlock` (line 282), with `toBlock`
defaulting to infinity (line 274). -/
def pastEnd (cfg : StreamConfig) (f : Nat) : Bool :=
  match cfg.toBlock with
  | some t => decide (t < f)
  | none => false

/-- Handling one line batch read from the body (lines 302-338): empty
batches are skipped; otherwise the batch is appended, `fromBlock` advances
past its last block, and if the buffer reached `maxBytes` the producer
parks on `takeFuture`, i.e. the buffer is handed off before the producer
proceeds. -/
def processChunk (maxB height : Nat) (st : StreamState) (c : Chunk) : StreamState :=
  if c.isEmpty then st
  else
    let buf := appendChunk height c st.buffer
    let st2 : StreamState :=
      { st with buffer := some buf, fromBlock := afterChunkFrom st.fromBlock c }
    if maxB ≤ buf.bytes then deliver st2 else st2

/-- Reading all line batches of one 200 response; each `reader.read()` is
an await point of the producer, so the consumer may complete a take before
every chunk. -/
def processChunks (maxB height : Nat) :
    StreamState → List Chunk → List Bool → StreamState × List Bool
  | st, [], sched => (st, sched)
  | st, c :: cs, sched =>
    let m := maybeTake st sched
    processChunks maxB height (processChunk maxB height m.1 c) cs m.2

/-- The request loop of `ingest` (lines 272-363) driven by the response
script. A 204 head-polls (or, with `stopOnHead`, exits the loop); a 200
has its body read; a body read that throws `HttpBodyTimeoutError` is
swallowed by the catch *outside* the request loop (lines 347-352), so the
ingest task returns, `close()` runs, and no further request is issued; any
other status fails the stream (lines 232-239), a pull pending at that
moment (next schedule bit) receiving the current buffer contents — the
JS `undefined` when there is none. -/
def runScript (cfg : StreamConfig) :
    StreamState → List Response → List Bool → StreamState
  | st, [], _ => if pastEnd cfg st.fromBlock then closeFlush st else st
  | st, r :: rest, sched =>
    if pastEnd cfg st.fromBlock then closeFlush st
    else
      let m := maybeTake st sched
      let st1 : StreamState := { m.1 with requests := m.1.requests ++ [m.1.fromBlock] }
      match r with
      | .noData =>
        if cfg.stopOnHead then closeFlush st1 else runScript cfg st1 rest m.2
      | .fatal =>
        match m.2 with
        | [] => { st1 with buffer := none, status := RunStatus.failed }
        | p :: _ =>
          if p then
            { st1 with delivered := st1.delivered ++ [st1.buffer], buffer := none,
                       status := RunStatus.failed }
          else { st1 with buffer := none, status := RunStatus.failed }
      | .data height chunks endk =>
        let p := processChunks (max cfg.maxBytes cfg.minBytes) height st1 chunks m.2
        match endk with
        | .timeout => closeFlush p.1
        | .normal => runScript cfg p.1 rest p.2

/-- The state of a fresh stream. -/
def initState (cfg : StreamConfig) : StreamState :=
  { fromBlock := cfg.fromBlock, buffer := none, delivered := [], requests := [],
    status := RunStatus.running }

/-- The proper batches the consumer received, in order. -/
def deliveredBatches (st : StreamState) : List Buffer := st.delivered.filterMap id

/-- All delivered block numbers, in delivery order. -/
def deliveredNums (st : StreamState) : List Nat :=
  ((deliveredBatches st).map (fun b => b.nums)).flatten

/-- The block numbers still sitting in the producer buffer. -/
def bufferNums (st : StreamState) : List Nat :=
  match st.buffer with
  | none => []
  | some b => b.nums

/-- Delivered block numbers followed by the buffered ones. -/
def allNums (st : StreamState) : List Nat := deliveredNums st ++ bufferNums st

/-- The finalized heights stamped on the delivered batches, in order. -/
def deliveredHeads (st : StreamState) : List Nat :=
  (deliveredBatches st).map (fun b => b.head)

/-- The finalized heights stamped on delivered batches followed by the
buffered one. -/
def allHeads (st : StreamState) : List Nat :=
  deliveredHeads st ++ (match st.buffer with | none => [] | some b => [b.head])

/-- The block numbers carried by the line batches of one response body. -/
def numsOfChunks (chunks : List Chunk) : List Nat :=
  chunks.flatten.map (fun l => l.num)

/-- Where `fromBlock` stands after ingesting a whole response body. -/
def advanceFrom (f : Nat) (chunks : List Chunk) : Nat :=
  match (numsOfChunks chunks).getLast? with
  | some n => n + 1
  | none => f

/-- Strictly increasing, as a boolean. -/
def chainLt : List Nat → Bool
  | [] => true
  | [_] => true
  | a :: b :: t => decide (a < b) && chainLt (b :: t)

/-- Server conformance with respect to an initial `fromBlock`: every 200
body carries strictly increasing block numbers, none below the requested
`fromBlock`. -/
def conformsB : Nat → List Response → Bool
  | _, [] => true
  | f, .noData :: rest => conformsB f rest
  | f, .fatal :: rest => conformsB f rest
  | f, .data _ chunks _ :: rest =>
    (numsOfChunks chunks).all (fun n => decide (f ≤ n)) &&
      chainLt (numsOfChunks chunks) && conformsB (advanceFrom f chunks) rest

/-- Monotone server heights: each 200 reports a finalized height at least
the previously reported one. -/
def headsOKB : Nat → List Response → Bool
  | _, [] => true
  | h, .noData :: rest => headsOKB h rest
  | h, .fatal :: rest => headsOKB h rest
  | h, .data hh _ _ :: rest => decide (h ≤ hh) && headsOKB hh rest

/-- The byte-bound invariant of C3: every delivered batch is within
`maxBytes` plus its final chunk, and a live buffer is strictly below
`maxBytes`. -/
def SizeInv (maxB : Nat) (st : StreamState) : Prop :=
  (∀ b ∈ deliveredBatches st, b.bytes ≤ maxB + b.lastChunkBytes) ∧
  (∀ b, st.buffer = some b → b.bytes < maxB)

/-- The producer-side invariant behind C9: all delivered batches and the
live buffer are non-empty, the stream is still open and no `undefined`
value has been delivered. -/
def ProdInv (st : StreamState) : Prop :=
  (∀ b, some b ∈ st.delivered → b.nums ≠ []) ∧
  (∀ b, st.buffer = some b → b.nums ≠ []) ∧
  st.status = RunStatus.running ∧ none ∉ st.delivered

theorem splitSep_ne_nil (sep : Nat) (s : JsStr) : splitSep sep s ≠ [] := by
  cases s with
  | nil => simp [splitSep]
  | cons c cs =>
    simp only [splitSep]
    cases splitSep sep cs with
    | nil => simp
    | cons h t =>
      by_cases hc : c = sep <;> simp [hc]

theorem glue_singleton_ne_nil (x : JsStr) (ys : List JsStr) (hy : ys ≠ []) :
    glue [x] ys = (x ++ ys.head hy) :: ys.tail := by
  cases ys with
  | nil => exact absurd rfl hy
  | cons y t => rfl

theorem glue_ne_nil (xs ys : List JsStr) (hx : xs ≠ []) : glue xs ys ≠ [] := by
  cases xs with
  | nil => exact absurd rfl hx
  | cons x t =>
    cases t with
    | nil =>
      cases ys with
      | nil => simp [glue]
      | cons y ys => simp [glue]
    | cons x2 t2 => simp [glue]

theorem splitSep_cons (sep c : Nat) (s : JsStr) :
    splitSep sep (c :: s) =
      match splitSep sep s with
      | [] => [[]]
      | h :: t => if c = sep then [] :: h :: t else (c :: h) :: t := by
  simp only [splitSep]

theorem splitSep_append (sep : Nat) (a b : JsStr) :
    splitSep sep (a ++ b) = glue (splitSep sep a) (splitSep sep b) := by
  induction a with
  | nil =>
    simp only [List.nil_append, splitSep]
    cases hb : splitSep sep b with
    | nil => exact absurd hb (splitSep_ne_nil sep b)
    | cons h t => simp [glue]
  | cons c cs ih =>
    rw [List.cons_append, splitSep_cons, splitSep_cons, ih]
    cases hcs : splitSep sep cs with
    | nil => exact absurd hcs (splitSep_ne_nil sep cs)
    | cons h t =>
      cases hg : glue (h :: t) (splitSep sep b) with
      | nil => exact absurd hg (glue_ne_nil _ _ (by simp))
      | cons g gs =>
        by_cases hc : c = sep
        · subst hc
          simp only [if_pos rfl]
          cases t with
          | nil =>
            cases hb : splitSep c b with
            | nil => exact absurd hb (splitSep_ne_nil c b)
            | cons hb1 tb =>
              rw [hb] at hg
              simp only [glue] at hg ⊢
              injection hg with hg1 hg2
              subst hg1; subst hg2
              simp
          | cons h2 t2 =>
            simp only [glue] at hg ⊢
            injection hg with hg1 hg2
            subst hg1; subst hg2
            simp
        · simp only [if_neg hc]
          cases t with
          | nil =>
            cases hb : splitSep sep b with
            | nil => exact absurd hb (splitSep_ne_nil sep b)
            | cons hb1 tb =>
              rw [hb] at hg
              simp only [glue] at hg ⊢
              injection hg with hg1 hg2
              subst hg1; subst hg2
              simp
          | cons h2 t2 =>
            simp only [glue] at hg ⊢
            injection hg with hg1 hg2
            subst hg1; subst hg2
            simp

theorem joinSep_splitSep (sep : Nat) (s : JsStr) :
    joinSep sep (splitSep sep s) = s := by
  induction s with
  | nil => simp [splitSep, joinSep]
  | cons c cs ih =>
    simp only [splitSep]
    cases hcs : splitSep sep cs with
    | nil => exact absurd hcs (splitSep_ne_nil sep cs)
    | cons h t =>
      rw [hcs] at ih
      by_cases hc : c = sep
      · subst hc
        simp only [if_pos rfl]
        cases t with
        | nil => simpa [joinSep] using ih
        | cons h2 t2 => simpa [joinSep] using ih
      · simp only [if_neg hc]
        cases t with
        | nil => simpa [joinSep] using ih
        | cons h2 t2 => simpa [joinSep] using ih

theorem lsTransform_glue (sep : Nat) (carry chunk : JsStr) :
    (lsTransform sep carry chunk).1 ++ [(lsTransform sep carry chunk).2] =
      glue [carry] (splitSep sep chunk) := by
  unfold lsTransform
  cases hs : splitSep sep chunk with
  | nil => exact absurd hs (splitSep_ne_nil sep chunk)
  | cons p t =>
    cases t with
    | nil => simp [glue]
    | cons q ps =>
      simp only [glue, List.cons_append, List.append_assoc, List.cons.injEq, true_and]
      exact List.dropLast_append_getLast (by simp)

theorem glue_append_singleton (xs : List JsStr) (x : JsStr) (S : List JsStr) :
    glue (xs ++ [x]) S = xs ++ glue [x] S := by
  induction xs with
  | nil => simp
  | cons a as ih =>
    cases has : as ++ [x] with
    | nil => simp at has
    | cons b bs =>
      rw [List.cons_append, has]
      simp only [glue]
      rw [← has, ih]
      simp

theorem glue_cons_glue (x p : JsStr) (t S : List JsStr) (hS : S ≠ []) :
    glue [x] (glue (p :: t) S) = glue ((x ++ p) :: t) S := by
  cases t with
  | nil =>
    cases S with
    | nil => exact absurd rfl hS
    | cons s ss => simp [glue]
  | cons q ts =>
    simp [glue]

theorem lsRun_glue (sep : Nat) (chunks : List JsStr) : ∀ carry : JsStr,
    (lsRun sep carry chunks).1.flatten ++ [(lsRun sep carry chunks).2] =
      glue [carry] (splitSep sep chunks.flatten) := by
  induction chunks with
  | nil =>
    intro carry
    simp [lsRun, splitSep, glue]
  | cons c cs ih =>
    intro carry
    have hflat : ∀ (b : List JsStr) (rest : List (List JsStr)),
        (if b.isEmpty then rest else b :: rest).flatten = b ++ rest.flatten := by
      intro b rest
      cases b <;> simp
    simp only [lsRun, List.flatten_cons, List.flatten, hflat, List.append_assoc]
    rw [ih]
    have h1 := lsTransform_glue sep carry c
    rw [splitSep_append]
    cases hc : splitSep sep c with
    | nil => exact absurd hc (splitSep_ne_nil sep c)
    | cons p t =>
      rw [glue_cons_glue _ _ _ _ (splitSep_ne_nil sep cs.flatten)]
      rw [hc] at h1
      have h2 : glue [carry] (p :: t) = (carry ++ p) :: t := by simp [glue]
      rw [h2] at h1
      rw [← h1, glue_append_singleton]

theorem glue_nil_singleton (L : List JsStr) (hL : L ≠ []) : glue [[]] L = L := by
  cases L with
  | nil => exact absurd rfl hL
  | cons h t => simp [glue]

theorem splitSep_append_sep (sep : Nat) (pre : JsStr) :
    splitSep sep (pre ++ [sep]) = splitSep sep pre ++ [[]] := by
  rw [splitSep_append]
  have h1 : splitSep sep [sep] = [[], []] := by simp [splitSep]
  rw [h1]
  cases hp : splitSep sep pre with
  | nil => exact absurd hp (splitSep_ne_nil sep pre)
  | cons p t =>
    have : p :: t = (p :: t).dropLast ++ [(p :: t).getLast (by simp)] :=
      (List.dropLast_append_getLast (by simp)).symm
    rw [this, glue_append_singleton]
    simp [glue]

/-- C5: for every partitioning of a text that ends with the separator into
arbitrary chunks, feeding the chunks through `LineSplitStream` and
concatenating the emitted line batches yields exactly the list of lines of
the original text (all `splitSep` fields except the trailing empty one);
joining the emitted lines with the separator reproduces the original
stream up to the final separator. -/
theorem C5_lineSplitStream_roundTrip (sep : Nat) (chunks : List JsStr) (pre : JsStr)
    (hend : chunks.flatten = pre ++ [sep]) :
    (lsOutput sep chunks).flatten = (splitSep sep chunks.flatten).dropLast ∧
    joinSep sep ((lsOutput sep chunks).flatten) ++ [sep] = chunks.flatten := by
  have hrun := lsRun_glue sep chunks []
  rw [glue_nil_singleton _ (splitSep_ne_nil _ _), hend, splitSep_append_sep] at hrun
  have hcarry : (lsRun sep [] chunks).2 = [] := by
    have := congrArg List.getLast? hrun
    simpa using this
  have hbatches : (lsRun sep [] chunks).1.flatten = splitSep sep pre := by
    have := congrArg List.dropLast hrun
    simpa using this
  have hout : (lsOutput sep chunks).flatten = splitSep sep pre := by
    rw [lsOutput, hcarry]
    simpa [lsFlush] using hbatches
  constructor
  · rw [hout, hend, splitSep_append_sep]
    simp
  · rw [hout, joinSep_splitSep, hend]

/-- Witness for C5 at a concrete chunking of the text `"ab\nc\n"` into
`"ab"` and `"\nc\n"` (code units; 10 is the newline). -/
theorem C5_witness :
    ([[97, 98], [10, 99, 10]] : List JsStr).flatten = [97, 98, 10, 99] ++ [10] ∧
    ((lsOutput 10 [[97, 98], [10, 99, 10]]).flatten =
        (splitSep 10 ([[97, 98], [10, 99, 10]] : List JsStr).flatten).dropLast ∧
      joinSep 10 ((lsOutput 10 [[97, 98], [10, 99, 10]]).flatten) ++ [10] =
        ([[97, 98], [10, 99, 10]] : List JsStr).flatten) :=
  ⟨by decide, C5_lineSplitStream_roundTrip 10 [[97, 98], [10, 99, 10]] [97, 98, 10, 99] (by decide)⟩

theorem lowerCode_idem (n : Nat) : lowerCode (lowerCode n) = lowerCode n := by
  unfold lowerCode
  by_cases h : 65 ≤ n ∧ n ≤ 90
  · rw [if_pos h, if_neg (by omega)]
  · rw [if_neg h, if_neg h]

theorem concatRequestLists_getD {T : Type} (a b : Option (List T)) :
    (concatRequestLists a b).getD [] = a.getD [] ++ b.getD [] ∧
    (concatRequestLists a b = none ↔ a.getD [] ++ b.getD [] = []) := by
  unfold concatRequestLists
  by_cases h : (a.getD [] ++ b.getD []) = []
  · simp [h]
  · simp [h, List.isEmpty_iff]

/-- C6: the payload merge sets each per-kind list of the result to the
concatenation of the two inputs with an absent list read as empty, leaves
the kind absent exactly when both inputs are absent or empty, and sets
`includeAllBlocks` to `true` exactly when it is `true` in one of the two
inputs, leaving it absent otherwise. -/
theorem C6_mergeDataRequests_spec {T : Type} (a b : DataRequest T) :
    ((mergeDataRequests a b).logs.getD [] = a.logs.getD [] ++ b.logs.getD [] ∧
      ((mergeDataRequests a b).logs = none ↔ a.logs.getD [] ++ b.logs.getD [] = [])) ∧
    ((mergeDataRequests a b).transactions.getD [] =
        a.transactions.getD [] ++ b.transactions.getD [] ∧
      ((mergeDataRequests a b).transactions = none ↔
        a.transactions.getD [] ++ b.transactions.getD [] = [])) ∧
    ((mergeDataRequests a b).traces.getD [] = a.traces.getD [] ++ b.traces.getD [] ∧
      ((mergeDataRequests a b).traces = none ↔ a.traces.getD [] ++ b.traces.getD [] = [])) ∧
    ((mergeDataRequests a b).stateDiffs.getD [] = a.stateDiffs.getD [] ++ b.stateDiffs.getD [] ∧
      ((mergeDataRequests a b).stateDiffs = none ↔
        a.stateDiffs.getD [] ++ b.stateDiffs.getD [] = [])) ∧
    ((mergeDataRequests a b).includeAllBlocks = some true ↔
      (a.includeAllBlocks = some true ∨ b.includeAllBlocks = some true)) ∧
    ((mergeDataRequests a b).includeAllBlocks = some true ∨
      (mergeDataRequests a b).includeAllBlocks = none) := by
  refine ⟨concatRequestLists_getD _ _, concatRequestLists_getD _ _,
    concatRequestLists_getD _ _, concatRequestLists_getD _ _, ?_, ?_⟩
  · unfold mergeDataRequests
    cases ha : a.includeAllBlocks with
    | none =>
      cases hb : b.includeAllBlocks with
      | none => simp
      | some bv => cases bv <;> simp
    | some av =>
      cases av with
      | false =>
        cases hb : b.includeAllBlocks with
        | none => simp
        | some bv => cases bv <;> simp
      | true => simp
  · unfold mergeDataRequests
    by_cases h : a.includeAllBlocks.getD false || b.includeAllBlocks.getD false
    · simp [h]
    · simp [h]

theorem lowerElem_str_of_mem (es : List JsVal) (s : JsStr)
    (hs : JsVal.str s ∈ es.map lowerElem) : s.map lowerCode = s := by
  rw [List.mem_map] at hs
  obtain ⟨v, hv, hlow⟩ := hs
  cases v with
  | str t =>
    simp only [lowerElem] at hlow
    injection hlow with h
    subst h
    rw [List.map_map]
    exact List.map_congr_left (fun a _ => lowerCode_idem a)
  | num n => simp [lowerElem] at hlow
  | bool b => simp [lowerElem] at hlow
  | arr a => simp [lowerElem] at hlow
  | obj p => simp [lowerElem] at hlow

theorem lowerElem_caseVariant {v w : JsVal} (h : CaseVariantElem v w) :
    lowerElem v = lowerElem w := by
  cases h with
  | strCase s t hst => simp [lowerElem, hst]
  | same v => rfl

theorem map_lowerElem_eq {es1 es2 : List JsVal} (h : List.Forall₂ CaseVariantElem es1 es2) :
    es1.map lowerElem = es2.map lowerElem := by
  induction h with
  | nil => rfl
  | cons hv _ ih => simp [lowerElem_caseVariant hv, ih]

theorem mapRequest_caseVariant {o1 o2 : Obj} (h : CaseVariantObj o1 o2) :
    mapRequest o1 = mapRequest o2 := by
  induction h with
  | nil => rfl
  | cons hp _ ih =>
    obtain ⟨hk, hval⟩ := hp
    simp only [mapRequest, List.map_cons] at ih ⊢
    rw [ih]
    rcases hval with heq | ⟨es1, es2, he1, he2, hf⟩
    · have : mapProp _ = mapProp _ := congrArg mapProp (Prod.ext hk heq)
      rw [this]
    · simp only [mapProp, he1, he2, hk, map_lowerElem_eq hf]

/-- C8: every add* operation appends exactly one `(range, {kind: [filter]})`
entry whose stored filter is the options object lowercased at call time by
`mapRequest`; every string element of every array-valued property of the
stored filter is already lowercase, and two options objects that differ
only in string case yield identical stored filters, so they compare equal
during the later merge in `build`. -/
theorem C8_addOps_lowercase (rs : List RangeEntry) (o o1 o2 : Obj)
    (hv : CaseVariantObj o1 o2) :
    addLog rs o =
      rs ++ [⟨getProp o "range", ⟨none, some [mapRequest o], none, none, none⟩⟩] ∧
    addTransaction rs o =
      rs ++ [⟨getProp o "range", ⟨none, none, some [mapRequest o], none, none⟩⟩] ∧
    addTrace rs o =
      rs ++ [⟨getProp o "range", ⟨none, none, none, some [mapRequest o], none⟩⟩] ∧
    addStateDiff rs o =
      rs ++ [⟨getProp o "range", ⟨none, none, none, none, some [mapRequest o]⟩⟩] ∧
    (∀ k es, (k, JsVal.arr es) ∈ mapRequest o → ∀ s, JsVal.str s ∈ es →
      s.map lowerCode = s) ∧
    mapRequest o1 = mapRequest o2 := by
  refine ⟨rfl, rfl, rfl, rfl, ?_, mapRequest_caseVariant hv⟩
  intro k es hmem s hs
  rw [mapRequest, List.mem_map] at hmem
  obtain ⟨⟨k0, v0⟩, hkv, hf⟩ := hmem
  cases v0 with
  | arr elems =>
    simp only [mapProp] at hf
    obtain ⟨hk0, hes⟩ := Prod.mk.injEq .. ▸ hf
    injection hf with hk1 hv1
    injection hv1 with hes1
    subst hes1
    exact lowerElem_str_of_mem elems s hs
  | str t => simp [mapProp] at hf
  | num n => simp [mapProp] at hf
  | bool b => simp [mapProp] at hf
  | obj p => simp [mapProp] at hf

/-- Witness for C8: filters `{address: ["A"]}` and `{address: ["a"]}`
(code units 65 and 97) are stored identically. -/
theorem C8_witness :
    mapRequest [("address", JsVal.arr [JsVal.str [65]])] =
      mapRequest [("address", JsVal.arr [JsVal.str [97]])] := by
  refine (C8_addOps_lowercase [] [] _ _ ?_).2.2.2.2.2
  refine List.Forall₂.cons ⟨rfl, Or.inr ⟨_, _, rfl, rfl, ?_⟩⟩ List.Forall₂.nil
  exact List.Forall₂.cons (CaseVariantElem.strCase [65] [97] (by decide)) List.Forall₂.nil

theorem mapRequest_keys (o : Obj) : (mapRequest o).map Prod.fst = o.map Prod.fst := by
  rw [mapRequest, List.map_map]
  refine List.map_congr_left (fun kv _ => ?_)
  obtain ⟨k0, v0⟩ := kv
  cases v0 <;> simp [mapProp]

theorem getProp_mapRequest_of_not_arr (o : Obj) (k : String) (v : JsVal)
    (hget : getProp o k = some v) (hv : ∀ es, v ≠ JsVal.arr es) :
    getProp (mapRequest o) k = some v := by
  induction o with
  | nil => simp [getProp] at hget
  | cons kv o ih =>
    obtain ⟨k0, v0⟩ := kv
    by_cases hk : k0 = k
    · subst hk
      simp only [getProp, List.find?] at hget
      rw [beq_self_eq_true] at hget
      simp only [Option.map_some] at hget
      injection hget with hget
      subst hget
      cases v0 with
      | arr es => exact absurd rfl (hv es)
      | str s => simp [mapRequest, mapProp, getProp, List.find?]
      | num n => simp [mapRequest, mapProp, getProp, List.find?]
      | bool b => simp [mapRequest, mapProp, getProp, List.find?]
      | obj p => simp [mapRequest, mapProp, getProp, List.find?]
    · have hne : (k0 == k) = false := beq_eq_false_iff_ne.mpr hk
      simp only [getProp, List.find?, hne] at hget
      have hstep : getProp (mapRequest (( k0, v0) :: o)) k = getProp (mapRequest o) k := by
        have hfst : (mapProp (k0, v0)).1 = k0 := by cases v0 <;> simp [mapProp]
        simp only [mapRequest, List.map_cons, getProp, List.find?]
        rw [show ((mapProp (k0, v0)).1 == k) = false by rw [hfst]; exact hne]
      rw [hstep]
      exact ih hget

/-- C10: each add* mutates the options object of the caller in place — after
the call the heap cell holds the lowercased object — and stores the callers
own reference (not a copy) as the single filter of the pushed entry; the
lowercasing keeps every property key, so the stored object still carries
its `range` property, whose non-array value is unchanged. -/
theorem C10_add_aliases_and_mutates (h : Heap) (rs : List RangeEntryH) (r : Ref)
    (hr : r < h.objs.length) :
    (addLogH h rs r).1.get r = mapRequest (h.get r) ∧
    (addLogH h rs r).2 =
      rs ++ [⟨getProp (h.get r) "range", ⟨none, some [r], none, none, none⟩⟩] ∧
    (addTransactionH h rs r).2 =
      rs ++ [⟨getProp (h.get r) "range", ⟨none, none, some [r], none, none⟩⟩] ∧
    (addTraceH h rs r).2 =
      rs ++ [⟨getProp (h.get r) "range", ⟨none, none, none, some [r], none⟩⟩] ∧
    (addStateDiffH h rs r).2 =
      rs ++ [⟨getProp (h.get r) "range", ⟨none, none, none, none, some [r]⟩⟩] ∧
    (mapRequest (h.get r)).map Prod.fst = (h.get r).map Prod.fst ∧
    (∀ v, getProp (h.get r) "range" = some v → (∀ es, v ≠ JsVal.arr es) →
      getProp ((addLogH h rs r).1.get r) "range" = some v) := by
  have hget : (addLogH h rs r).1.get r = mapRequest (h.get r) := by
    simp only [addLogH, mapRequestH, Heap.set, Heap.get, List.getD]
    rw [List.get?_eq_getElem?, List.getElem?_set_self hr]
    rfl
  refine ⟨hget, rfl, rfl, rfl, rfl, mapRequest_keys _, ?_⟩
  intro v hv hnotarr
  rw [hget]
  exact getProp_mapRequest_of_not_arr _ _ _ hv hnotarr

/-- Witness for C10 at a one-object heap holding
`{range: {}, address: ["B"]}` (code unit 66). -/
theorem C10_witness :
    (addLogH ⟨[[("range", JsVal.obj []), ("address", JsVal.arr [JsVal.str [66]])]]⟩ [] 0).1.get 0 =
      mapRequest (Heap.get ⟨[[("range", JsVal.obj []), ("address", JsVal.arr [JsVal.str [66]])]]⟩ 0) ∧
    getProp
      ((addLogH ⟨[[("range", JsVal.obj []), ("address", JsVal.arr [JsVal.str [66]])]]⟩ [] 0).1.get 0)
      "range" = some (JsVal.obj []) := by
  have h := C10_add_aliases_and_mutates
    ⟨[[("range", JsVal.obj []), ("address", JsVal.arr [JsVal.str [66]])]]⟩ [] 0 (by simp)
  refine ⟨h.1, h.2.2.2.2.2.2 (JsVal.obj []) rfl ?_⟩
  intro es hes
  cases hes

theorem spreadTrue_union (keys : List String) (base : String → Bool) (k : String) :
    spreadTrue keys base k = (base k || decide (k ∈ keys)) := by
  unfold spreadTrue
  by_cases h : k ∈ keys <;> simp [h]

/-- C7: the field selection sent with each wire request is the union of the
user selection and the always-selected set: `block.{number,hash,parentHash}`,
`transaction.transactionIndex`, `log.{logIndex,transactionIndex}`,
`trace.{transactionIndex,traceAddress,type}` and
`stateDiff.{transactionIndex,address,key,kind}`; every user-enabled field
stays enabled and every always-selected field is enabled regardless of the
user input. -/
theorem C7_effective_fields_union (requests : List (Nat × Option Nat))
    (userFields : Option FieldSelection) (q : WireQuery)
    (hq : q ∈ mkQueries requests userFields) (k : String) :
    q.fields.block k =
      ((userFields.getD emptySelection).block k ||
        decide (k ∈ ["number", "hash", "parentHash"])) ∧
    q.fields.transaction k =
      ((userFields.getD emptySelection).transaction k ||
        decide (k ∈ ["transactionIndex"])) ∧
    q.fields.log k =
      ((userFields.getD emptySelection).log k ||
        decide (k ∈ ["logIndex", "transactionIndex"])) ∧
    q.fields.trace k =
      ((userFields.getD emptySelection).trace k ||
        decide (k ∈ ["transactionIndex", "traceAddress", "type"])) ∧
    q.fields.stateDiff k =
      ((userFields.getD emptySelection).stateDiff k ||
        decide (k ∈ ["transactionIndex", "address", "key", "kind"])) := by
  have hfields : q.fields = getFields userFields := by
    rw [mkQueries, List.mem_map] at hq
    obtain ⟨r, _, hr⟩ := hq
    rw [← hr]
  rw [hfields]
  refine ⟨spreadTrue_union _ _ _, spreadTrue_union _ _ _, spreadTrue_union _ _ _,
    spreadTrue_union _ _ _, ?_⟩
  show spreadTrue ["kind"] (spreadTrue ["transactionIndex", "address", "key"] _) k = _
  rw [spreadTrue_union, spreadTrue_union, Bool.or_assoc]
  congr 1
  rw [← Bool.decide_or]
  exact decide_eq_decide.mpr (by simp [List.mem_cons, or_assoc])

/-- Witness for C7: a single range with an absent user selection; the
always-selected `number` and `kind` fields come out enabled. -/
theorem C7_witness :
    (({ fromBlock := 0, toBlock := none, fields := getFields none } : WireQuery) ∈
        mkQueries [(0, none)] none) ∧
    (getFields none).block "number" =
      ((Option.getD none emptySelection).block "number" ||
        decide ("number" ∈ ["number", "hash", "parentHash"])) ∧
    (getFields none).stateDiff "kind" =
      ((Option.getD none emptySelection).stateDiff "kind" ||
        decide ("kind" ∈ ["transactionIndex", "address", "key", "kind"])) := by
  have hq : ({ fromBlock := 0, toBlock := none, fields := getFields none } : WireQuery) ∈
      mkQueries [(0, none)] none := by
    simp [mkQueries]
  have h1 := C7_effective_fields_union [(0, none)] none _ hq "number"
  have h2 := C7_effective_fields_union [(0, none)] none _ hq "kind"
  exact ⟨hq, h1.1, h2.2.2.2.2⟩

theorem deliver_fromBlock (st : StreamState) : (deliver st).fromBlock = st.fromBlock := by
  unfold deliver
  cases st.buffer <;> rfl

theorem deliver_status (st : StreamState) : (deliver st).status = st.status := by
  unfold deliver
  cases st.buffer <;> rfl

theorem deliver_requests (st : StreamState) : (deliver st).requests = st.requests := by
  unfold deliver
  cases st.buffer <;> rfl

theorem deliver_allNums (st : StreamState) : allNums (deliver st) = allNums st := by
  cases hb : st.buffer with
  | none => simp [deliver, allNums, deliveredNums, deliveredBatches, bufferNums, hb]
  | some b => simp [deliver, allNums, deliveredNums, deliveredBatches, bufferNums, hb]

theorem deliver_allHeads (st : StreamState) : allHeads (deliver st) = allHeads st := by
  cases hb : st.buffer with
  | none => simp [deliver, allHeads, deliveredHeads, deliveredBatches, hb]
  | some b => simp [deliver, allHeads, deliveredHeads, deliveredBatches, hb]

theorem maybeTake_fromBlock (st : StreamState) (sched : List Bool) :
    (maybeTake st sched).1.fromBlock = st.fromBlock := by
  unfold maybeTake
  cases sched with
  | nil => rfl
  | cons b rest =>
    by_cases hb : b <;> simp [hb, deliver_fromBlock]

theorem maybeTake_status (st : StreamState) (sched : List Bool) :
    (maybeTake st sched).1.status = st.status := by
  unfold maybeTake
  cases sched with
  | nil => rfl
  | cons b rest =>
    by_cases hb : b <;> simp [hb, deliver_status]

theorem maybeTake_allNums (st : StreamState) (sched : List Bool) :
    allNums (maybeTake st sched).1 = allNums st := by
  unfold maybeTake
  cases sched with
  | nil => rfl
  | cons b rest =>
    by_cases hb : b <;> simp [hb, deliver_allNums]

theorem maybeTake_allHeads (st : StreamState) (sched : List Bool) :
    allHeads (maybeTake st sched).1 = allHeads st := by
  unfold maybeTake
  cases sched with
  | nil => rfl
  | cons b rest =>
    by_cases hb : b <;> simp [hb, deliver_allHeads]

theorem closeFlush_status (st : StreamState) : (closeFlush st).status = RunStatus.closed := rfl

theorem closeFlush_allNums (st : StreamState) : allNums (closeFlush st) = allNums st := by
  have h1 : allNums (closeFlush st) = allNums (deliver st) := by
    simp [closeFlush, allNums, deliveredNums, deliveredBatches, bufferNums]
  rw [h1, deliver_allNums]

theorem closeFlush_allHeads (st : StreamState) : allHeads (closeFlush st) = allHeads st := by
  have h1 : allHeads (closeFlush st) = allHeads (deliver st) := by
    simp [closeFlush, allHeads, deliveredHeads, deliveredBatches]
  rw [h1, deliver_allHeads]

/-- C2 fails on the code: after an `HttpBodyTimeoutError` mid-body the
ingest task exits the request loop (the catch at client.ts line 347 sits
outside the `while`), so with two blocks read before the timeout and a
further block available from a follow-up request the stream closes having
issued only the one request, never delivering block 2. -/
theorem C2_counterexample :
    (runScript ⟨1000, 1000, 0, none, false⟩ (initState ⟨1000, 1000, 0, none, false⟩)
        [Response.data 10 [[⟨5, 0⟩, ⟨5, 1⟩]] EndKind.timeout,
          Response.data 20 [[⟨5, 2⟩]] EndKind.normal] []).requests = [0] ∧
    (runScript ⟨1000, 1000, 0, none, false⟩ (initState ⟨1000, 1000, 0, none, false⟩)
        [Response.data 10 [[⟨5, 0⟩, ⟨5, 1⟩]] EndKind.timeout,
          Response.data 20 [[⟨5, 2⟩]] EndKind.normal] []).status = RunStatus.closed ∧
    2 ∉ deliveredNums (runScript ⟨1000, 1000, 0, none, false⟩
        (initState ⟨1000, 1000, 0, none, false⟩)
        [Response.data 10 [[⟨5, 0⟩, ⟨5, 1⟩]] EndKind.timeout,
          Response.data 20 [[⟨5, 2⟩]] EndKind.normal] []) := by
  decide

/-- C2 amended: a body-read timeout inside a 200 response is not surfaced
to the consumer as an error, but it does not restart the request either:
the ingest loop terminates — everything after the timeout response is
ignored — and the stream closes cleanly, flushing the buffered blocks. -/
theorem C2_amended_timeout_closes (cfg : StreamConfig) (st : StreamState)
    (height : Nat) (chunks : List Chunk) (rest : List Response) (sched : List Bool) :
    runScript cfg st (Response.data height chunks EndKind.timeout :: rest) sched =
      runScript cfg st [Response.data height chunks EndKind.timeout] sched ∧
    (runScript cfg st (Response.data height chunks EndKind.timeout :: rest) sched).status =
      RunStatus.closed := by
  constructor
  · simp only [runScript]
  · simp only [runScript]
    by_cases h : pastEnd cfg st.fromBlock
    · simp [h, closeFlush_status]
    · simp [h, closeFlush_status]

theorem deliver_deliveredBatches (st : StreamState) :
    deliveredBatches (deliver st) =
      deliveredBatches st ++ (match st.buffer with | none => [] | some b => [b]) := by
  cases hb : st.buffer <;> simp [deliver, deliveredBatches, hb]

theorem deliver_buffer_some (st : StreamState) (b : Buffer) :
    (deliver st).buffer = some b → st.buffer = some b := by
  cases hb : st.buffer <;> simp [deliver, hb]

theorem appendChunk_bytes (height : Nat) (c : Chunk) (buf : Option Buffer) :
    (appendChunk height c buf).bytes =
      (match buf with | none => 0 | some b => b.bytes) + chunkBytes c := by
  cases buf <;> rfl

theorem appendChunk_lastChunkBytes (height : Nat) (c : Chunk) (buf : Option Buffer) :
    (appendChunk height c buf).lastChunkBytes = chunkBytes c := by
  cases buf <;> rfl

theorem deliver_sizeInv (maxB : Nat) (st : StreamState) (h : SizeInv maxB st) :
    SizeInv maxB (deliver st) := by
  obtain ⟨hdel, hbuf⟩ := h
  constructor
  · intro b hb
    rw [deliver_deliveredBatches] at hb
    rcases List.mem_append.mp hb with h1 | h2
    · exact hdel b h1
    · cases hsb : st.buffer with
      | none => rw [hsb] at h2; cases h2
      | some b0 =>
        rw [hsb] at h2
        simp at h2
        subst h2
        exact le_trans (le_of_lt (hbuf b hsb)) (Nat.le_add_right _ _)
  · intro b hb
    exact hbuf b (deliver_buffer_some st b hb)

theorem maybeTake_sizeInv (maxB : Nat) (st : StreamState) (sched : List Bool)
    (h : SizeInv maxB st) : SizeInv maxB (maybeTake st sched).1 := by
  unfold maybeTake
  cases sched with
  | nil => exact h
  | cons b rest =>
    by_cases hb : b
    · simpa [hb] using deliver_sizeInv maxB st h
    · simpa [hb] using h

theorem closeFlush_sizeInv (maxB : Nat) (st : StreamState) (h : SizeInv maxB st) :
    SizeInv maxB (closeFlush st) := by
  have hd := deliver_sizeInv maxB st h
  constructor
  · intro b hb
    refine hd.1 b ?_
    simpa [closeFlush, deliveredBatches] using hb
  · intro b hb
    refine hd.2 b ?_
    simpa [closeFlush] using hb

theorem processChunk_sizeInv (maxB height : Nat) (st : StreamState) (c : Chunk)
    (h : SizeInv maxB st) : SizeInv maxB (processChunk maxB height st c) := by
  obtain ⟨hdel, hbuf⟩ := h
  unfold processChunk
  by_cases hc : c.isEmpty
  · simpa [hc] using ⟨hdel, hbuf⟩
  · simp only [hc, Bool.false_eq_true, if_false]
    have hbb : (appendChunk height c st.buffer).bytes ≤
        maxB + (appendChunk height c st.buffer).lastChunkBytes := by
      rw [appendChunk_bytes, appendChunk_lastChunkBytes]
      cases hsb : st.buffer with
      | none =>
        show 0 + chunkBytes c ≤ maxB + chunkBytes c
        omega
      | some b0 =>
        have := hbuf b0 hsb
        show b0.bytes + chunkBytes c ≤ maxB + chunkBytes c
        omega
    by_cases hfull : maxB ≤ (appendChunk height c st.buffer).bytes
    · simp only [hfull, if_true]
      constructor
      · intro b hb
        rw [deliver_deliveredBatches] at hb
        rcases List.mem_append.mp hb with h1 | h2
        · exact hdel b (by simpa [deliveredBatches] using h1)
        · simp at h2
          subst h2
          exact hbb
      · intro b hb
        simp [deliver] at hb
    · simp only [hfull, if_false]
      constructor
      · intro b hb
        exact hdel b (by simpa [deliveredBatches] using hb)
      · intro b hb
        simp at hb
        subst hb
        omega

theorem processChunks_sizeInv (maxB height : Nat) (chunks : List Chunk) :
    ∀ (st : StreamState) (sched : List Bool), SizeInv maxB st →
      SizeInv maxB (processChunks maxB height st chunks sched).1 := by
  induction chunks with
  | nil => intro st sched h; exact h
  | cons c cs ih =>
    intro st sched h
    exact ih _ _ (processChunk_sizeInv maxB height _ c (maybeTake_sizeInv maxB st sched h))

theorem runScript_sizeInv (cfg : StreamConfig) (script : List Response) :
    ∀ (st : StreamState) (sched : List Bool),
      SizeInv (max cfg.maxBytes cfg.minBytes) st →
      SizeInv (max cfg.maxBytes cfg.minBytes) (runScript cfg st script sched) := by
  induction script with
  | nil =>
    intro st sched h
    unfold runScript
    by_cases hp : pastEnd cfg st.fromBlock
    · simpa [hp] using closeFlush_sizeInv _ st h
    · simpa [hp] using h
  | cons r rest ih =>
    intro st sched h
    unfold runScript
    by_cases hp : pastEnd cfg st.fromBlock
    · simpa [hp] using closeFlush_sizeInv _ st h
    · simp only [hp, Bool.false_eq_true, if_false]
      have hm : SizeInv (max cfg.maxBytes cfg.minBytes) (maybeTake st sched).1 :=
        maybeTake_sizeInv _ st sched h
      have hst1 : SizeInv (max cfg.maxBytes cfg.minBytes)
          { (maybeTake st sched).1 with
            requests := (maybeTake st sched).1.requests ++ [(maybeTake st sched).1.fromBlock] } := by
        exact ⟨fun b hb => hm.1 b (by simpa [deliveredBatches] using hb),
          fun b hb => hm.2 b (by simpa using hb)⟩
      cases r with
      | noData =>
        by_cases hs : cfg.stopOnHead
        · simpa [hs] using closeFlush_sizeInv _ _ hst1
        · simpa [hs] using ih _ _ hst1
      | fatal =>
        cases hsched : (maybeTake st sched).2 with
        | nil =>
          exact ⟨fun b hb => hst1.1 b (by simpa [deliveredBatches] using hb),
            fun b hb => by simp at hb⟩
        | cons p rest2 =>
          by_cases hpp : p
          · simp only [hpp, if_true]
            constructor
            · intro b hb
              simp only [deliveredBatches, List.filterMap_append] at hb
              rcases List.mem_append.mp hb with h1 | h2
              · exact hst1.1 b (by simpa [deliveredBatches] using h1)
              · cases hsb : (maybeTake st sched).1.buffer with
                | none => rw [hsb] at h2; simp at h2
                | some b0 =>
                  rw [hsb] at h2
                  simp at h2
                  subst h2
                  exact le_trans (le_of_lt (hst1.2 b hsb)) (Nat.le_add_right _ _)
            · intro b hb
              simp at hb
          · simp only [hpp, if_false]
            exact ⟨fun b hb => hst1.1 b (by simpa [deliveredBatches] using hb),
              fun b hb => by simp at hb⟩
      | data height chunks endk =>
        have hpc := processChunks_sizeInv (max cfg.maxBytes cfg.minBytes) height chunks _
          (maybeTake st sched).2 hst1
        cases endk with
        | timeout => simpa using closeFlush_sizeInv _ _ hpc
        | normal => simpa using ih _ _ hpc

/-- C3 fails as stated: with `minBytes = maxBytes = 10` and a body whose
first line batch is one 9-byte line and whose second is two 5-byte lines,
the single delivered batch weighs 19 raw bytes — it exceeds `maxBytes` by
9, more than its 5-byte last line — because backpressure is checked per
line batch, after the whole batch has been appended. -/
theorem C3_counterexample :
    ∃ b ∈ deliveredBatches (runScript ⟨10, 10, 0, none, false⟩
        (initState ⟨10, 10, 0, none, false⟩)
        [Response.data 7 [[⟨9, 0⟩], [⟨5, 1⟩, ⟨5, 2⟩]] EndKind.normal] []),
      max (10 : Nat) 10 + b.lastLineBytes < b.bytes := by
  decide

/-- C3 amended: every delivered batch exceeds `maxBytes` (after the
`max maxBytes minBytes` normalisation) by at most the size of the last
*line batch* appended to it, a live buffer always weighs strictly less
than `maxBytes`, and a line-batch append that reaches `maxBytes` hands the
buffer off to the consumer before the producer processes anything
further. -/
theorem C3_amended_batch_bounds (cfg : StreamConfig) (script : List Response)
    (sched : List Bool) (maxB height : Nat) (st0 : StreamState) (c : Chunk)
    (hc : c.isEmpty = false) (hfull : maxB ≤ (appendChunk height c st0.buffer).bytes) :
    (∀ b ∈ deliveredBatches (runScript cfg (initState cfg) script sched),
      b.bytes ≤ max cfg.maxBytes cfg.minBytes + b.lastChunkBytes) ∧
    (∀ b, (runScript cfg (initState cfg) script sched).buffer = some b →
      b.bytes < max cfg.maxBytes cfg.minBytes) ∧
    (processChunk maxB height st0 c).buffer = none ∧
    (processChunk maxB height st0 c).delivered =
      st0.delivered ++ [some (appendChunk height c st0.buffer)] := by
  have hrun := runScript_sizeInv cfg script (initState cfg) sched
    ⟨by intro b hb; simp [deliveredBatches, initState] at hb,
      by intro b hb; simp [initState] at hb⟩
  refine ⟨hrun.1, hrun.2, ?_, ?_⟩
  · simp [processChunk, hc, hfull, deliver]
  · simp [processChunk, hc, hfull, deliver]

/-- Witness for C3 amended: two 5-byte lines on top of a 9-byte buffer
reach `maxBytes = 10`, so the 19-byte buffer is handed off at once. -/
theorem C3_witness :
    (([⟨5, 1⟩, ⟨5, 2⟩] : Chunk).isEmpty = false ∧
      10 ≤ (appendChunk 7 [⟨5, 1⟩, ⟨5, 2⟩]
        (some ⟨7, [0], 9, 9, 9⟩)).bytes) ∧
    (processChunk 10 7
        { fromBlock := 1, buffer := some ⟨7, [0], 9, 9, 9⟩, delivered := [],
          requests := [0], status := RunStatus.running } [⟨5, 1⟩, ⟨5, 2⟩]).buffer = none ∧
    (processChunk 10 7
        { fromBlock := 1, buffer := some ⟨7, [0], 9, 9, 9⟩, delivered := [],
          requests := [0], status := RunStatus.running } [⟨5, 1⟩, ⟨5, 2⟩]).delivered =
      [] ++ [some (appendChunk 7 [⟨5, 1⟩, ⟨5, 2⟩] (some ⟨7, [0], 9, 9, 9⟩))] := by
  refine ⟨⟨by decide, by decide⟩, ?_⟩
  have h := C3_amended_batch_bounds ⟨10, 10, 0, none, false⟩ [] [] 10 7
    { fromBlock := 1, buffer := some ⟨7, [0], 9, 9, 9⟩, delivered := [],
      requests := [0], status := RunStatus.running } [⟨5, 1⟩, ⟨5, 2⟩]
    (by decide) (by decide)
  exact ⟨h.2.2.1, h.2.2.2⟩

theorem deliver_prodInv (st : StreamState) (h : ProdInv st) : ProdInv (deliver st) := by
  obtain ⟨h1, h2, h3, h4⟩ := h
  cases hb : st.buffer with
  | none => simpa [deliver, hb] using ⟨h1, h2, h3, h4⟩
  | some b =>
    simp only [deliver, hb]
    refine ⟨?_, ?_, h3, ?_⟩
    · intro b' hb'
      rcases List.mem_append.mp hb' with hm | hm
      · exact h1 b' hm
      · simp at hm
        subst hm
        exact h2 b' hb
    · intro b' hb'
      simp at hb'
    · intro hn
      rcases List.mem_append.mp hn with hm | hm
      · exact h4 hm
      · simp at hm

theorem maybeTake_prodInv (st : StreamState) (sched : List Bool) (h : ProdInv st) :
    ProdInv (maybeTake st sched).1 := by
  unfold maybeTake
  cases sched with
  | nil => exact h
  | cons b rest =>
    by_cases hb : b
    · simpa [hb] using deliver_prodInv st h
    · simpa [hb] using h

theorem processChunk_prodInv (maxB height : Nat) (st : StreamState) (c : Chunk)
    (h : ProdInv st) : ProdInv (processChunk maxB height st c) := by
  obtain ⟨h1, h2, h3, h4⟩ := h
  unfold processChunk
  by_cases hc : c.isEmpty
  · simpa [hc] using ⟨h1, h2, h3, h4⟩
  · simp only [hc, Bool.false_eq_true, if_false]
    have hcne : c ≠ [] := by
      intro hnil
      rw [hnil] at hc
      simp at hc
    have hcm : c.map (fun l => l.num) ≠ [] := by simpa using hcne
    have hnums : (appendChunk height c st.buffer).nums ≠ [] := by
      cases hsb : st.buffer with
      | none =>
        show ([] : List Nat) ++ c.map (fun l => l.num) ≠ []
        simpa using hcm
      | some b0 =>
        show b0.nums ++ c.map (fun l => l.num) ≠ []
        intro happ
        exact hcm (List.append_eq_nil.mp happ).2
    have hmid : ProdInv
        { fromBlock := afterChunkFrom st.fromBlock c,
          buffer := some (appendChunk height c st.buffer),
          delivered := st.delivered, requests := st.requests, status := st.status } := by
      refine ⟨h1, ?_, h3, h4⟩
      intro b hb
      simp only [Option.some.injEq] at hb
      subst hb
      exact hnums
    by_cases hfull : maxB ≤ (appendChunk height c st.buffer).bytes
    · simpa [hfull] using deliver_prodInv _ hmid
    · simpa [hfull] using hmid

theorem processChunks_prodInv (maxB height : Nat) (chunks : List Chunk) :
    ∀ (st : StreamState) (sched : List Bool), ProdInv st →
      ProdInv (processChunks maxB height st chunks sched).1 := by
  induction chunks with
  | nil => intro st sched h; exact h
  | cons c cs ih =>
    intro st sched h
    exact ih _ _ (processChunk_prodInv maxB height _ c (maybeTake_prodInv st sched h))

theorem closeFlush_batches (st : StreamState) (h : ProdInv st) :
    (∀ b, some b ∈ (closeFlush st).delivered → b.nums ≠ []) ∧
    (none ∈ (closeFlush st).delivered → (closeFlush st).status = RunStatus.failed) := by
  have hd := deliver_prodInv st h
  constructor
  · intro b hb
    refine hd.1 b ?_
    simpa [closeFlush] using hb
  · intro hn
    exact absurd (by simpa [closeFlush] using hn : none ∈ (deliver st).delivered) hd.2.2.2

theorem runScript_prodInv (cfg : StreamConfig) (script : List Response) :
    ∀ (st : StreamState) (sched : List Bool), ProdInv st →
      (∀ b, some b ∈ (runScript cfg st script sched).delivered → b.nums ≠ []) ∧
      (none ∈ (runScript cfg st script sched).delivered →
        (runScript cfg st script sched).status = RunStatus.failed) := by
  induction script with
  | nil =>
    intro st sched h
    unfold runScript
    by_cases hp : pastEnd cfg st.fromBlock
    · simpa [hp] using closeFlush_batches st h
    · simp only [hp, Bool.false_eq_true, if_false]
      exact ⟨h.1, fun hn => absurd hn h.2.2.2⟩
  | cons r rest ih =>
    intro st sched h
    unfold runScript
    by_cases hp : pastEnd cfg st.fromBlock
    · simpa [hp] using closeFlush_batches st h
    · simp only [hp, Bool.false_eq_true, if_false]
      have hm : ProdInv (maybeTake st sched).1 := maybeTake_prodInv st sched h
      have hst1 : ProdInv { (maybeTake st sched).1 with
          requests := (maybeTake st sched).1.requests ++ [(maybeTake st sched).1.fromBlock] } :=
        ⟨fun b hb => hm.1 b (by simpa using hb), fun b hb => hm.2.1 b (by simpa using hb),
          hm.2.2.1, fun hn => hm.2.2.2 (by simpa using hn)⟩
      cases r with
      | noData =>
        by_cases hs : cfg.stopOnHead
        · simpa [hs] using closeFlush_batches _ hst1
        · simpa [hs] using ih _ _ hst1
      | fatal =>
        cases hsched : (maybeTake st sched).2 with
        | nil => exact ⟨fun b hb => hst1.1 b (by simpa using hb), fun _ => rfl⟩
        | cons p rest2 =>
          by_cases hpp : p
          · simp only [hpp, if_true]
            refine ⟨?_, by intro hn; trivial⟩
            intro b hb
            have hb' : some b ∈ (maybeTake st sched).1.delivered ∨
                some b = (maybeTake st sched).1.buffer := by simpa using hb
            rcases hb' with hm2 | hm2
            · exact hst1.1 b (by simpa using hm2)
            · exact hst1.2.1 b hm2.symm
          · simp only [hpp, if_false]
            exact ⟨fun b hb => hst1.1 b (by simpa using hb), fun _ => rfl⟩
      | data height chunks endk =>
        have hpc := processChunks_prodInv (max cfg.maxBytes cfg.minBytes) height chunks _
          (maybeTake st sched).2 hst1
        cases endk with
        | timeout => simpa using closeFlush_batches _ hpc
        | normal => simpa using ih _ _ hpc

/-- C9 fails on the code: when a non-200/204 status fails the stream while
a pull is already past takes failed-state check and waiting on the
futures, `fail()` resolves them and the pull completes with
`{value: undefined, done: false}` (take() only special-cases
only the closed state), so the consumer receives a valueless, blockless
result that is not end-of-stream. -/
theorem C9_counterexample :
    none ∈ (runScript ⟨10, 10, 0, none, false⟩ (initState ⟨10, 10, 0, none, false⟩)
        [Response.fatal] [false, true]).delivered ∧
    (runScript ⟨10, 10, 0, none, false⟩ (initState ⟨10, 10, 0, none, false⟩)
        [Response.fatal] [false, true]).status = RunStatus.failed := by
  decide

/-- C9 amended: every proper batch a pull delivers is non-empty — the put
future resolves only after at least one parsed line has been appended — and
a pull can complete without a batch (the `undefined` value) only on the
failure path; closure itself yields a done result, never an empty batch. -/
theorem C9_amended_batches_nonEmpty (cfg : StreamConfig) (script : List Response)
    (sched : List Bool) :
    (∀ b, some b ∈ (runScript cfg (initState cfg) script sched).delivered →
      b.nums ≠ []) ∧
    (none ∈ (runScript cfg (initState cfg) script sched).delivered →
      (runScript cfg (initState cfg) script sched).status = RunStatus.failed) := by
  refine runScript_prodInv cfg script (initState cfg) sched ?_
  refine ⟨?_, ?_, rfl, ?_⟩
  · intro b hb
    simp [initState] at hb
  · intro b hb
    simp [initState] at hb
  · simp [initState]

theorem appendChunk_nums (height : Nat) (c : Chunk) (buf : Option Buffer) :
    (appendChunk height c buf).nums =
      (match buf with | none => [] | some b => b.nums) ++ c.map (fun l => l.num) := by
  cases buf <;> rfl

theorem numsOfChunks_cons (c : Chunk) (cs : List Chunk) :
    numsOfChunks (c :: cs) = c.map (fun l => l.num) ++ numsOfChunks cs := by
  simp [numsOfChunks]

theorem processChunk_allNums (maxB height : Nat) (st : StreamState) (c : Chunk) :
    allNums (processChunk maxB height st c) = allNums st ++ c.map (fun l => l.num) := by
  unfold processChunk
  by_cases hc : c.isEmpty
  · have hnil : c = [] := List.isEmpty_iff.mp hc
    subst hnil
    simp
  · simp only [hc, Bool.false_eq_true, if_false]
    have hmid : allNums
        { fromBlock := afterChunkFrom st.fromBlock c,
          buffer := some (appendChunk height c st.buffer),
          delivered := st.delivered, requests := st.requests, status := st.status } =
        allNums st ++ c.map (fun l => l.num) := by
      show deliveredNums st ++ (appendChunk height c st.buffer).nums = _
      rw [appendChunk_nums]
      show _ = (deliveredNums st ++ bufferNums st) ++ _
      rw [List.append_assoc]
      rfl
    by_cases hfull : maxB ≤ (appendChunk height c st.buffer).bytes
    · simp only [hfull, if_true]
      rw [deliver_allNums]
      exact hmid
    · simp only [hfull, if_false]
      exact hmid

theorem processChunk_fromBlock (maxB height : Nat) (st : StreamState) (c : Chunk) :
    (processChunk maxB height st c).fromBlock = afterChunkFrom st.fromBlock c := by
  unfold processChunk
  by_cases hc : c.isEmpty
  · have hnil : c = [] := List.isEmpty_iff.mp hc
    subst hnil
    simp [afterChunkFrom]
  · simp only [hc, Bool.false_eq_true, if_false]
    by_cases hfull : maxB ≤ (appendChunk height c st.buffer).bytes
    · simp only [hfull, if_true]
      rw [deliver_fromBlock]
    · simp only [hfull, if_false]

theorem processChunks_allNums (maxB height : Nat) (chunks : List Chunk) :
    ∀ (st : StreamState) (sched : List Bool),
      allNums (processChunks maxB height st chunks sched).1 =
        allNums st ++ numsOfChunks chunks := by
  induction chunks with
  | nil =>
    intro st sched
    simp [processChunks, numsOfChunks]
  | cons c cs ih =>
    intro st sched
    simp only [processChunks]
    rw [ih, processChunk_allNums, maybeTake_allNums, numsOfChunks_cons, List.append_assoc]

theorem advanceFrom_cons (f : Nat) (c : Chunk) (cs : List Chunk) :
    advanceFrom f (c :: cs) = advanceFrom (afterChunkFrom f c) cs := by
  unfold advanceFrom afterChunkFrom
  cases hcs : (numsOfChunks cs).getLast? with
  | none =>
    have hnil : numsOfChunks cs = [] := List.getLast?_eq_none_iff.mp hcs
    rw [numsOfChunks_cons, hnil, List.append_nil, List.getLast?_map]
    cases hcl : c.getLast? <;> simp
  | some m =>
    rw [numsOfChunks_cons, List.getLast?_append, hcs]
    simp

theorem processChunks_fromBlock (maxB height : Nat) (chunks : List Chunk) :
    ∀ (st : StreamState) (sched : List Bool),
      (processChunks maxB height st chunks sched).1.fromBlock =
        advanceFrom st.fromBlock chunks := by
  induction chunks with
  | nil =>
    intro st sched
    simp [processChunks, advanceFrom, numsOfChunks]
  | cons c cs ih =>
    intro st sched
    simp only [processChunks]
    rw [ih, processChunk_fromBlock, maybeTake_fromBlock, advanceFrom_cons]

theorem le_getLast_of_pairwise :
    ∀ (l : List Nat), List.Pairwise (· < ·) l → ∀ x ∈ l, ∀ m, l.getLast? = some m → x ≤ m := by
  intro l
  induction l with
  | nil =>
    intro _ x hx
    cases hx
  | cons a t ih =>
    intro hp x hx m hm
    cases t with
    | nil =>
      simp at hm
      rcases List.mem_singleton.mp hx with rfl
      omega
    | cons b t2 =>
      rw [List.getLast?_cons_cons] at hm
      have hmem : m ∈ b :: t2 := List.mem_of_mem_getLast? hm
      rcases List.mem_cons.mp hx with rfl | hx2
      · exact le_of_lt ((List.pairwise_cons.mp hp).1 m hmem)
      · exact ih (List.pairwise_cons.mp hp).2 x hx2 m hm

theorem chainLt_iff (l : List Nat) : chainLt l = true ↔ List.Chain' (· < ·) l := by
  induction l with
  | nil => simp [chainLt]
  | cons a t ih =>
    cases t with
    | nil => simp [chainLt]
    | cons b t2 =>
      simp [chainLt, List.chain'_cons, ih, Bool.and_eq_true, decide_eq_true_iff, and_comm]

theorem processChunks_numInv (maxB height : Nat) (chunks : List Chunk) (st : StreamState)
    (sched : List Bool) (hpair : List.Pairwise (· < ·) (allNums st))
    (hlt : ∀ n ∈ allNums st, n < st.fromBlock)
    (hge : ∀ n ∈ numsOfChunks chunks, st.fromBlock ≤ n)
    (hcp : List.Pairwise (· < ·) (numsOfChunks chunks)) :
    List.Pairwise (· < ·) (allNums (processChunks maxB height st chunks sched).1) ∧
    (∀ n ∈ allNums (processChunks maxB height st chunks sched).1,
      n < (processChunks maxB height st chunks sched).1.fromBlock) := by
  rw [processChunks_allNums, processChunks_fromBlock]
  constructor
  · rw [List.pairwise_append]
    exact ⟨hpair, hcp, fun x hx y hy => lt_of_lt_of_le (hlt x hx) (hge y hy)⟩
  · intro n hn
    have hfle : st.fromBlock ≤ advanceFrom st.fromBlock chunks := by
      unfold advanceFrom
      cases hg : (numsOfChunks chunks).getLast? with
      | none => exact le_refl _
      | some m =>
        have hmem : m ∈ numsOfChunks chunks := List.mem_of_mem_getLast? hg
        have h3 := hge m hmem
        show st.fromBlock ≤ m + 1
        omega
    rcases List.mem_append.mp hn with h1 | h2
    · exact lt_of_lt_of_le (hlt n h1) hfle
    · unfold advanceFrom
      cases hg : (numsOfChunks chunks).getLast? with
      | none => exact absurd h2 (by simp [List.getLast?_eq_none_iff.mp hg])
      | some m =>
        have h3 := le_getLast_of_pairwise _ hcp n h2 m hg
        show n < m + 1
        omega

theorem conformsB_data (f height : Nat) (chunks : List Chunk) (endk : EndKind)
    (rest : List Response)
    (h : conformsB f (Response.data height chunks endk :: rest) = true) :
    (∀ n ∈ numsOfChunks chunks, f ≤ n) ∧ List.Pairwise (· < ·) (numsOfChunks chunks) ∧
    conformsB (advanceFrom f chunks) rest = true := by
  simp only [conformsB, Bool.and_eq_true] at h
  obtain ⟨⟨hall, hchain⟩, hrest⟩ := h
  refine ⟨?_, List.chain'_iff_pairwise.mp ((chainLt_iff _).mp hchain), hrest⟩
  intro n hn
  simpa using List.all_eq_true.mp hall n hn

theorem pairwise_append_bufferOpt (dl : List (Option Buffer)) (ob : Option Buffer)
    (h : List.Pairwise (· < ·)
      ((((dl.filterMap id).map (fun b => b.nums)).flatten) ++
        (match ob with | none => [] | some b => b.nums))) :
    List.Pairwise (· < ·) ((((dl ++ [ob]).filterMap id).map (fun b => b.nums)).flatten) := by
  cases ob with
  | none => simpa using h
  | some b => simpa using h

theorem runScript_numInv (cfg : StreamConfig) (script : List Response) :
    ∀ (st : StreamState) (sched : List Bool),
      List.Pairwise (· < ·) (allNums st) → (∀ n ∈ allNums st, n < st.fromBlock) →
      conformsB st.fromBlock script = true →
      List.Pairwise (· < ·) (allNums (runScript cfg st script sched)) := by
  induction script with
  | nil =>
    intro st sched hp hlt hcf
    unfold runScript
    by_cases hpe : pastEnd cfg st.fromBlock
    · simpa [hpe, closeFlush_allNums] using hp
    · simpa [hpe] using hp
  | cons r rest ih =>
    intro st sched hp hlt hcf
    unfold runScript
    by_cases hpe : pastEnd cfg st.fromBlock
    · simpa [hpe, closeFlush_allNums] using hp
    · simp only [hpe, Bool.false_eq_true, if_false]
      have hmN : allNums (maybeTake st sched).1 = allNums st := maybeTake_allNums st sched
      have hmF : (maybeTake st sched).1.fromBlock = st.fromBlock := maybeTake_fromBlock st sched
      have h1N : allNums { (maybeTake st sched).1 with
          requests := (maybeTake st sched).1.requests ++ [(maybeTake st sched).1.fromBlock] } =
          allNums st := hmN
      have h1F : ({ (maybeTake st sched).1 with
          requests := (maybeTake st sched).1.requests ++
            [(maybeTake st sched).1.fromBlock] } : StreamState).fromBlock = st.fromBlock := hmF
      cases r with
      | noData =>
        by_cases hs : cfg.stopOnHead
        · rw [if_pos hs, closeFlush_allNums, h1N]
          exact hp
        · rw [if_neg hs]
          refine ih _ _ (h1N ▸ hp) ?_ ?_
          · intro n hn
            rw [h1N] at hn
            rw [h1F]
            exact hlt n hn
          · rw [h1F]
            simpa [conformsB] using hcf
      | fatal =>
        have hp1 : List.Pairwise (· < ·) (allNums (maybeTake st sched).1) := by
          rw [hmN]
          exact hp
        have hd1 : List.Pairwise (· < ·) (deliveredNums (maybeTake st sched).1) :=
          hp1.sublist (List.sublist_append_left _ _)
        cases hsched : (maybeTake st sched).2 with
        | nil =>
          show List.Pairwise (· < ·) (deliveredNums (maybeTake st sched).1 ++ ([] : List Nat))
          rw [List.append_nil]
          exact hd1
        | cons p rest2 =>
          by_cases hpp : p
          · simp only [hpp, if_true]
            show List.Pairwise (· < ·)
              (((((maybeTake st sched).1.delivered ++ [(maybeTake st sched).1.buffer]).filterMap
                id).map (fun b => b.nums)).flatten ++ ([] : List Nat))
            rw [List.append_nil]
            exact pairwise_append_bufferOpt _ _ hp1
          · simp only [hpp, if_false]
            show List.Pairwise (· < ·) (deliveredNums (maybeTake st sched).1 ++ ([] : List Nat))
            rw [List.append_nil]
            exact hd1
      | data height chunks endk =>
        obtain ⟨hge, hcp, hrest⟩ := conformsB_data st.fromBlock height chunks endk rest hcf
        have hpc := processChunks_numInv (max cfg.maxBytes cfg.minBytes) height chunks
          { (maybeTake st sched).1 with
            requests := (maybeTake st sched).1.requests ++ [(maybeTake st sched).1.fromBlock] }
          (maybeTake st sched).2 (h1N ▸ hp)
          (by
            intro n hn
            rw [h1N] at hn
            rw [h1F]
            exact hlt n hn)
          (by
            rw [h1F]
            exact hge) hcp
        cases endk with
        | timeout =>
          rw [closeFlush_allNums]
          exact hpc.1
        | normal =>
          refine ih _ _ hpc.1 hpc.2 ?_
          rw [processChunks_fromBlock, h1F]
          exact hrest

/-- C1: with a conformant server — every 200 body carries strictly
increasing block numbers, none below the requested `fromBlock` — the block
header numbers of all delivered blocks are strictly increasing, within one
batch and across consecutive batches, over the whole lifetime of the
stream; the ingest loop maintains this by setting `fromBlock` to the last
appended block number plus one before issuing the next request. -/
theorem C1_blockNumbers_strictMono (cfg : StreamConfig) (script : List Response)
    (sched : List Bool) (hconf : conformsB cfg.fromBlock script = true) :
    List.Chain' (· < ·) (deliveredNums (runScript cfg (initState cfg) script sched)) := by
  have hall := runScript_numInv cfg script (initState cfg) sched
    (by simp [initState, allNums, deliveredNums, deliveredBatches, bufferNums])
    (by
      intro n hn
      simp [initState, allNums, deliveredNums, deliveredBatches, bufferNums] at hn)
    hconf
  rw [List.chain'_iff_pairwise]
  exact hall.sublist (List.sublist_append_left _ _)

/-- Witness for C1: two 200 responses separated by a 204, serving blocks
0, 1 and then 2. -/
theorem C1_witness :
    conformsB 0 [Response.data 5 [[⟨3, 0⟩, ⟨3, 1⟩]] EndKind.normal, Response.noData,
      Response.data 6 [[⟨3, 2⟩]] EndKind.normal] = true ∧
    List.Chain' (· < ·) (deliveredNums (runScript ⟨10, 10, 0, none, false⟩
      (initState ⟨10, 10, 0, none, false⟩)
      [Response.data 5 [[⟨3, 0⟩, ⟨3, 1⟩]] EndKind.normal, Response.noData,
        Response.data 6 [[⟨3, 2⟩]] EndKind.normal] [true, false, true, false])) :=
  ⟨by decide, C1_blockNumbers_strictMono ⟨10, 10, 0, none, false⟩ _ _ (by decide)⟩

theorem appendChunk_head (height : Nat) (c : Chunk) (buf : Option Buffer) :
    (appendChunk height c buf).head = height := by
  cases buf <;> rfl

theorem processChunk_allHeads_of_ne (maxB height : Nat) (st : StreamState) (c : Chunk)
    (hc : c.isEmpty = false) :
    allHeads (processChunk maxB height st c) = deliveredHeads st ++ [height] := by
  unfold processChunk
  simp only [hc, Bool.false_eq_true, if_false]
  have hmid : allHeads
      { fromBlock := afterChunkFrom st.fromBlock c,
        buffer := some (appendChunk height c st.buffer),
        delivered := st.delivered, requests := st.requests, status := st.status } =
      deliveredHeads st ++ [height] := by
    show deliveredHeads st ++ [(appendChunk height c st.buffer).head] = _
    rw [appendChunk_head]
  by_cases hfull : maxB ≤ (appendChunk height c st.buffer).bytes
  · simp only [hfull, if_true]
    rw [deliver_allHeads]
    exact hmid
  · simp only [hfull, if_false]
    exact hmid

theorem processChunk_headInv (maxB height : Nat) (st : StreamState) (c : Chunk)
    (hp : List.Pairwise (· ≤ ·) (allHeads st)) (hb : ∀ x ∈ allHeads st, x ≤ height) :
    List.Pairwise (· ≤ ·) (allHeads (processChunk maxB height st c)) ∧
    (∀ x ∈ allHeads (processChunk maxB height st c), x ≤ height) := by
  by_cases hc : c.isEmpty
  · have hnil : c = [] := List.isEmpty_iff.mp hc
    subst hnil
    unfold processChunk
    simp only [List.isEmpty_nil, if_true]
    exact ⟨hp, hb⟩
  · rw [processChunk_allHeads_of_ne maxB height st c (Bool.not_eq_true _ ▸ hc)]
    have hdel : List.Pairwise (· ≤ ·) (deliveredHeads st) :=
      hp.sublist (List.sublist_append_left _ _)
    constructor
    · rw [List.pairwise_append]
      refine ⟨hdel, by simp, ?_⟩
      intro x hx y hy
      rw [List.mem_singleton.mp hy]
      exact hb x (List.mem_append_left _ hx)
    · intro x hx
      rcases List.mem_append.mp hx with h1 | h2
      · exact hb x (List.mem_append_left _ h1)
      · rw [List.mem_singleton.mp h2]

theorem processChunks_headInv (maxB height : Nat) (chunks : List Chunk) :
    ∀ (st : StreamState) (sched : List Bool),
      List.Pairwise (· ≤ ·) (allHeads st) → (∀ x ∈ allHeads st, x ≤ height) →
      List.Pairwise (· ≤ ·) (allHeads (processChunks maxB height st chunks sched).1) ∧
      (∀ x ∈ allHeads (processChunks maxB height st chunks sched).1, x ≤ height) := by
  induction chunks with
  | nil =>
    intro st sched hp hb
    exact ⟨hp, hb⟩
  | cons c cs ih =>
    intro st sched hp hb
    have hm : List.Pairwise (· ≤ ·) (allHeads (maybeTake st sched).1) := by
      rw [maybeTake_allHeads]
      exact hp
    have hmb : ∀ x ∈ allHeads (maybeTake st sched).1, x ≤ height := by
      intro x hx
      rw [maybeTake_allHeads] at hx
      exact hb x hx
    have hone := processChunk_headInv maxB height (maybeTake st sched).1 c hm hmb
    exact ih _ _ hone.1 hone.2

theorem pairwise_append_bufferOptHead (dl : List (Option Buffer)) (ob : Option Buffer)
    (h : List.Pairwise (· ≤ ·)
      (((dl.filterMap id).map (fun b => b.head)) ++
        (match ob with | none => [] | some b => [b.head]))) :
    List.Pairwise (· ≤ ·) (((dl ++ [ob]).filterMap id).map (fun b => b.head)) := by
  cases ob with
  | none => simpa using h
  | some b => simpa using h

theorem runScript_headInv (cfg : StreamConfig) (script : List Response) :
    ∀ (st : StreamState) (sched : List Bool) (h : Nat),
      List.Pairwise (· ≤ ·) (allHeads st) → (∀ x ∈ allHeads st, x ≤ h) →
      headsOKB h script = true →
      List.Pairwise (· ≤ ·) (allHeads (runScript cfg st script sched)) := by
  induction script with
  | nil =>
    intro st sched h hp hb hok
    unfold runScript
    by_cases hpe : pastEnd cfg st.fromBlock
    · simpa [hpe, closeFlush_allHeads] using hp
    · simpa [hpe] using hp
  | cons r rest ih =>
    intro st sched h hp hb hok
    unfold runScript
    by_cases hpe : pastEnd cfg st.fromBlock
    · simpa [hpe, closeFlush_allHeads] using hp
    · simp only [hpe, Bool.false_eq_true, if_false]
      have hmH : allHeads (maybeTake st sched).1 = allHeads st := maybeTake_allHeads st sched
      have h1H : allHeads { (maybeTake st sched).1 with
          requests := (maybeTake st sched).1.requests ++ [(maybeTake st sched).1.fromBlock] } =
          allHeads st := hmH
      cases r with
      | noData =>
        by_cases hs : cfg.stopOnHead
        · rw [if_pos hs, closeFlush_allHeads, h1H]
          exact hp
        · rw [if_neg hs]
          refine ih _ _ h (h1H ▸ hp) ?_ ?_
          · intro x hx
            rw [h1H] at hx
            exact hb x hx
          · simpa [headsOKB] using hok
      | fatal =>
        have hp1 : List.Pairwise (· ≤ ·) (allHeads (maybeTake st sched).1) := by
          rw [hmH]
          exact hp
        have hd1 : List.Pairwise (· ≤ ·) (deliveredHeads (maybeTake st sched).1) :=
          hp1.sublist (List.sublist_append_left _ _)
        cases hsched : (maybeTake st sched).2 with
        | nil =>
          show List.Pairwise (· ≤ ·) (deliveredHeads (maybeTake st sched).1 ++ ([] : List Nat))
          rw [List.append_nil]
          exact hd1
        | cons p rest2 =>
          by_cases hpp : p
          · simp only [hpp, if_true]
            show List.Pairwise (· ≤ ·)
              (((((maybeTake st sched).1.delivered ++ [(maybeTake st sched).1.buffer]).filterMap
                id).map (fun b => b.head)) ++ ([] : List Nat))
            rw [List.append_nil]
            exact pairwise_append_bufferOptHead _ _ hp1
          · simp only [hpp, if_false]
            show List.Pairwise (· ≤ ·) (deliveredHeads (maybeTake st sched).1 ++ ([] : List Nat))
            rw [List.append_nil]
            exact hd1
      | data height chunks endk =>
        have hok2 : h ≤ height ∧ headsOKB height rest = true := by
          simpa [headsOKB, Bool.and_eq_true, decide_eq_true_iff] using hok
        have hpc := processChunks_headInv (max cfg.maxBytes cfg.minBytes) height chunks
          { (maybeTake st sched).1 with
            requests := (maybeTake st sched).1.requests ++ [(maybeTake st sched).1.fromBlock] }
          (maybeTake st sched).2 (h1H ▸ hp)
          (by
            intro x hx
            rw [h1H] at hx
            exact le_trans (hb x hx) hok2.1)
        cases endk with
        | timeout =>
          rw [closeFlush_allHeads]
          exact hpc.1
        | normal => exact ih _ _ height hpc.1 hpc.2 hok2.2

/-- C4: with monotone server heights — each 200 response reports a
finalized height at least the previously reported one — the
`finalizedHead` height stamped on batch i+1 is at least the one stamped on
batch i, for every pair of consecutive delivered batches. -/
theorem C4_finalizedHead_monotone (cfg : StreamConfig) (script : List Response)
    (sched : List Bool) (hheads : headsOKB 0 script = true) :
    List.Chain' (· ≤ ·) (deliveredHeads (runScript cfg (initState cfg) script sched)) := by
  have hall := runScript_headInv cfg script (initState cfg) sched 0
    (by simp [initState, allHeads, deliveredHeads, deliveredBatches])
    (by
      intro x hx
      simp [initState, allHeads, deliveredHeads, deliveredBatches] at hx)
    hheads
  rw [List.chain'_iff_pairwise]
  exact hall.sublist (List.sublist_append_left _ _)

/-- Witness for C4: two 200 responses reporting heights 5 and then 7. -/
theorem C4_witness :
    headsOKB 0 [Response.data 5 [[⟨3, 0⟩]] EndKind.normal,
      Response.data 7 [[⟨3, 1⟩]] EndKind.normal] = true ∧
    List.Chain' (· ≤ ·) (deliveredHeads (runScript ⟨10, 10, 0, none, false⟩
      (initState ⟨10, 10, 0, none, false⟩)
      [Response.data 5 [[⟨3, 0⟩]] EndKind.normal,
        Response.data 7 [[⟨3, 1⟩]] EndKind.normal] [true, true, true])) :=
  ⟨by decide, C4_finalizedHead_monotone ⟨10, 10, 0, none, false⟩ _ _ (by decide)⟩

end Sqd
